import Mathlib

/-!
Verification of the IndiaMart market-comparison dashboard script (app.py).

The development embeds the pure content of the script in Lean:
* `clean_price` and `extract_unit` mirror the two price-normalisation
  utilities built on Python regular expressions;
* `extractRow`, `scrapeListings`, `drop_duplicates` and `run_scraper`
  mirror the extraction loop of the scraper and the pandas
  post-processing (duplicate removal, derived columns, sorting);
* `final_view` and the KPI functions mirror the dashboard computations.

Machine strings are lists of characters; Python character classes are
restricted to their ASCII behaviour; the numeric value of a price is an
exact rational, standing for the value produced by Python float parsing.
-/

/-- ASCII whitespace as recognised by Python str.strip and the regex class. -/
def pyIsSpace (c : Char) : Bool :=
  c = ' ' || c = '\t' || c = '\n' || c = '\x0d' || c = '\x0b' || c = '\x0c'

/-- Python str.strip on a list of characters: whitespace removed at both ends. -/
def pyStrip (l : List Char) : List Char :=
  ((l.dropWhile pyIsSpace).reverse.dropWhile pyIsSpace).reverse

/-- Python str.strip on a string. -/
def pyStripStr (s : String) : String :=
  String.mk (pyStrip s.data)

/-- Deleting every comma and rupee sign, as done by the two replace calls. -/
def removeCommaRupee (l : List Char) : List Char :=
  l.filter (fun c => !(c = ',' || c = '₹'))

/-- The text matched by the regex (\d+(\.\d+)?) when anchored at l,
assuming l starts with a digit: the maximal digit run, extended by a dot
and a further digit run when present. -/
def numAt (l : List Char) : List Char :=
  if (l.dropWhile Char.isDigit).head? = some '.' ∧
      ((l.dropWhile Char.isDigit).drop 1).takeWhile Char.isDigit ≠ [] then
    l.takeWhile Char.isDigit ++ '.' :: ((l.dropWhile Char.isDigit).drop 1).takeWhile Char.isDigit
  else l.takeWhile Char.isDigit

/-- Leftmost search for the regex (\d+(\.\d+)?): scan for the first digit
and take the maximal numeric literal starting there. -/
def findNum : List Char → Option (List Char)
  | [] => none
  | c :: rest => if c.isDigit then some (numAt (c :: rest)) else findNum rest

/-- Decimal value of a digit run. -/
def digitsToNat (l : List Char) : Nat :=
  l.foldl (fun a c => 10 * a + (c.toNat - 48)) 0

/-- Exact value of a matched numeric literal, integer part plus an
optional fractional part. -/
def decValue (t : List Char) : ℚ :=
  if (t.dropWhile Char.isDigit).head? = some '.' then
    (digitsToNat (t.takeWhile Char.isDigit) : ℚ) +
      (digitsToNat ((t.dropWhile Char.isDigit).drop 1) : ℚ) /
        (10 : ℚ) ^ ((t.dropWhile Char.isDigit).drop 1).length
  else (digitsToNat (t.takeWhile Char.isDigit) : ℚ)

/-- clean_price from app.py: on a missing or empty price return none,
otherwise delete commas and rupee signs, strip, and search for the first
numeric literal, returning its value. -/
def clean_price : Option String → Option ℚ
  | none => none
  | some s =>
    if s = "" then none
    else
      match findNum (pyStrip (removeCommaRupee s.data)) with
      | some t => some (decValue t)
      | none => none

/-- Word characters of the regex class \w, in its ASCII reading. -/
def isWordChar (c : Char) : Bool :=
  c.isAlphanum || c = '_'

/-- Leftmost search for the regex /\s*(\w+): at each slash, skip
whitespace and take the run of word characters; when that run is empty
the scan continues after the slash. -/
def findUnit : List Char → Option (List Char)
  | [] => none
  | c :: rest =>
    if c = '/' then
      if (rest.dropWhile pyIsSpace).takeWhile isWordChar = [] then findUnit rest
      else some ((rest.dropWhile pyIsSpace).takeWhile isWordChar)
    else findUnit rest

/-- Python str.capitalize: first character upper-cased, the rest
lower-cased. -/
def pyCapitalize : List Char → List Char
  | [] => []
  | c :: rest => c.toUpper :: rest.map Char.toLower

/-- extract_unit from app.py: the capitalised word following the first
matching slash, with the two fallback labels of the source. -/
def extract_unit : Option String → String
  | none => "Price on Request"
  | some s =>
    if s = "" then ("Price on Request")
    else
      match findUnit s.data with
      | some w => String.mk (pyCapitalize (pyStrip w))
      | none => "Unit/Request"

/-- All characters of a run are decimal digits. -/
def AllDigits (l : List Char) : Prop := ∀ c ∈ l, c.isDigit = true

/-- Shape of a numeric literal as the specification words it: digits,
optionally followed by a dot and digits. -/
def NumShape (t : List Char) : Prop :=
  (∃ d, d ≠ [] ∧ AllDigits d ∧ t = d) ∨
  (∃ d f, d ≠ [] ∧ f ≠ [] ∧ AllDigits d ∧ AllDigits f ∧ t = d ++ '.' :: f)

/-- The matched literal cannot be extended to the right: the following
character is not a digit, and a dot-free literal is not followed by a dot
and a digit. -/
def RightMaximal (t b : List Char) : Prop :=
  b.head?.any Char.isDigit = false ∧
  ('.' ∈ t ∨ ∀ r, b = '.' :: r → r.head?.any Char.isDigit = false)

/-- t is the first maximal numeric substring of u: u splits around t, no
digit occurs before t, t is shaped as a numeric literal, and t cannot be
extended to the right. -/
def IsFirstMaximalNum (u t : List Char) : Prop :=
  ∃ a b, u = a ++ t ++ b ∧ (∀ c ∈ a, c.isDigit = false) ∧ NumShape t ∧ RightMaximal t b

/-- A slash-match attempt succeeds somewhere in the list: some slash is
followed, after optional whitespace, by at least one word character. -/
def anyUnitMatch : List Char → Bool
  | [] => false
  | c :: rest =>
    (c = '/' && decide ((rest.dropWhile pyIsSpace).takeWhile isWordChar ≠ [])) || anyUnitMatch rest

/-- w is the unit word of u: u splits at a slash, w is the nonempty run
of word characters following that slash after optional whitespace, and
every earlier slash fails to produce such a run. -/
def IsFirstUnit (u w : List Char) : Prop :=
  ∃ a tail, u = a ++ '/' :: tail ∧
    w = (tail.dropWhile pyIsSpace).takeWhile isWordChar ∧ w ≠ [] ∧
    ∀ a1 a2, a = a1 ++ '/' :: a2 →
      ((a2 ++ '/' :: tail).dropWhile pyIsSpace).takeWhile isWordChar = []

/-- A DOM element as the scraper reads it: its visible text and its
href value. -/
structure El where
  text : String
  href : String
  deriving DecidableEq

/-- The card-like ancestor container of a price tag, with the element
lists returned by the four find_elements lookups. -/
structure Container where
  nameEls : List El
  linkEls : List El
  sellerEls : List El
  locEls : List El
  deriving DecidableEq

/-- A price-tag element: its text, and the ancestor container when the
ancestor lookup succeeds; none stands for the lookup raising. -/
structure PriceTag where
  text : String
  container : Option Container
  deriving DecidableEq

/-- One scraped listing, the dict appended to listings in the loop. -/
structure Row where
  product : String
  price : String
  seller : String
  location : String
  link : String
  deriving DecidableEq

/-- Text of the first element of a lookup, stripped, or the fallback
default when the lookup found nothing. -/
def firstTextD : List El → String → String
  | [], d => d
  | e :: _, _ => pyStripStr e.text

/-- href of the first element of a lookup, or the fallback default. -/
def firstHrefD : List El → String → String
  | [], d => d
  | e :: _, _ => e.href

/-- The body of the scraping loop for one price tag: strip the text,
skip noise (empty or longer than 25 characters), pivot to the ancestor
container (raising when absent), and build the row with the four
fallback lookups. -/
def extractRow (p : PriceTag) : Except Unit (Option Row) :=
  if pyStripStr p.text = "" ∨ 25 < (pyStripStr p.text).length then Except.ok none
  else
    match p.container with
    | none => Except.error ()
    | some c =>
      Except.ok (some ⟨firstTextD c.nameEls ("Unknown Product"), pyStripStr p.text,
        firstTextD c.sellerEls ("Contact Seller"),
        firstTextD c.locEls ("India"),
        firstHrefD c.linkEls ("#")⟩)

/-- The scraping loop: each price tag contributes its row; a skipped tag
or a raising tag contributes nothing, and iteration continues. -/
def scrapeListings : List PriceTag → List Row
  | [] => []
  | p :: ps =>
    match extractRow p with
    | Except.ok (some r) => r :: scrapeListings ps
    | Except.ok none => scrapeListings ps
    | Except.error _ => scrapeListings ps

/-- The duplicate key used by drop_duplicates: the Product and Seller
columns. -/
def rowKey (r : Row) : String × String := (r.product, r.seller)

/-- drop_duplicates with keep first: a row is dropped when its key was
already seen. -/
def dedupBy : List Row → List (String × String) → List Row
  | [], _ => []
  | r :: rs, seen =>
    if rowKey r ∈ seen then dedupBy rs seen
    else r :: dedupBy rs (rowKey r :: seen)

/-- pandas drop_duplicates on the Product and Seller columns. -/
def drop_duplicates (l : List Row) : List Row := dedupBy l []

/-- A row of the returned DataFrame, carrying the two derived columns
Numeric Price and Unit. -/
structure DRow where
  product : String
  price : String
  seller : String
  location : String
  link : String
  numericPrice : Option ℚ
  unit : String
  deriving DecidableEq

/-- Adding the derived columns: Numeric Price is clean_price of the
Price column, Unit is extract_unit of the Price column. -/
def addDerived (r : Row) : DRow :=
  ⟨r.product, r.price, r.seller, r.location, r.link,
    clean_price (some r.price), extract_unit (some r.price)⟩

/-- Python lexicographic comparison of strings by code point. -/
def strLt : List Char → List Char → Bool
  | [], [] => false
  | [], _ :: _ => true
  | _ :: _, [] => false
  | x :: xs, y :: ys => x < y || (x = y && strLt xs ys)

/-- Order on the Numeric Price column as pandas sorts it: missing values
placed last, present values by numeric order. -/
def optLE (a b : Option ℚ) : Bool :=
  match a, b with
  | _, none => true
  | none, some _ => false
  | some x, some y => decide (x ≤ y)

/-- The sort order of run_scraper: ascending by Unit, and among equal
Units ascending by Numeric Price. -/
def rowR (a b : DRow) : Prop :=
  strLt a.unit.data b.unit.data = true ∨
  (a.unit = b.unit ∧ optLE a.numericPrice b.numericPrice = true)

instance : DecidableRel rowR :=
  fun _ _ => inferInstanceAs (Decidable (_ ∨ _))

/-- run_scraper after the browser interaction: the scraped listings are
deduplicated on Product and Seller, the derived columns are added, and
the rows are sorted ascending by Unit then Numeric Price. -/
def run_scraper (tags : List PriceTag) : List DRow :=
  List.insertionSort rowR ((drop_duplicates (scrapeListings tags)).map addDerived)

/-- The duplicate key on rows of the returned frame. -/
def dKey (r : DRow) : String × String := (r.product, r.seller)

/-- final_view of the dashboard: the full result set under the
All Cities filter, and the rows whose Location equals the selected city
otherwise. -/
def final_view (cityFilter : String) (rows : List DRow) : List DRow :=
  if cityFilter = "All Cities" then rows
  else rows.filter (fun r => decide (r.location = cityFilter))

/-- The non-missing values of the Numeric Price column, which pandas
aggregations skip missing values to. -/
def nonNullPrices (rows : List DRow) : List ℚ :=
  rows.filterMap (fun r => r.numericPrice)

/-- The Suppliers Found KPI: the number of rows. -/
def kpiSuppliersFound (rows : List DRow) : Nat := rows.length

/-- Minimum of a list of rationals, none on the empty list. -/
def colMin : List ℚ → Option ℚ
  | [] => none
  | q :: qs =>
    match colMin qs with
    | none => some q
    | some m => some (min q m)

/-- The Starting Price KPI: pandas min of the Numeric Price column. -/
def kpiStartingPrice (rows : List DRow) : Option ℚ :=
  colMin (nonNullPrices rows)

/-- The Avg Market Price KPI: pandas mean of the Numeric Price column. -/
def kpiAvgPrice (rows : List DRow) : Option ℚ :=
  if nonNullPrices rows = [] then none
  else some ((nonNullPrices rows).sum / ((nonNullPrices rows).length : ℚ))

/-- Events of the browser-session lifecycle. -/
inductive SessionEv where
  | openS
  | closeS
  | act
  deriving DecidableEq

/-- The with-scoped browser session of run_scraper: the session opens at
entry, the body runs, and the session closes on both the normal and the
raising path; a raising body propagates its exception, a normal body
yields the processed rows. -/
def withBrowserSession (bodyEvents : List SessionEv)
    (bodyResult : Except String (List PriceTag)) :
    List SessionEv × Except String (List DRow) :=
  (SessionEv.openS :: bodyEvents ++ [SessionEv.closeS],
   match bodyResult with
   | Except.error e => Except.error e
   | Except.ok tags => Except.ok (run_scraper tags))

/-- Membership survives dropWhile for elements the scanned class rejects. -/
theorem mem_dropWhile_of_not {p : Char → Bool} {c : Char} {l : List Char}
    (h : c ∈ l) (hc : p c = false) : c ∈ l.dropWhile p := by
  induction l with
  | nil => cases h
  | cons a l ih =>
    rw [List.dropWhile_cons]
    by_cases ha : p a = true
    · rw [if_pos ha]
      rcases List.mem_cons.1 h with h1 | h1
      · subst h1; rw [hc] at ha; cases ha
      · exact ih h1
    · rw [if_neg ha]; exact h

/-- The first element surviving dropWhile is rejected by the class. -/
theorem dropWhile_head_false {p : Char → Bool} {l : List Char} {a : Char} {r : List Char}
    (h : l.dropWhile p = a :: r) : p a = false := by
  induction l with
  | nil => simp [List.dropWhile_nil] at h
  | cons x xs ih =>
    rw [List.dropWhile_cons] at h
    by_cases hx : p x = true
    · rw [if_pos hx] at h; exact ih h
    · rw [if_neg hx] at h
      injection h with h1 _
      subst h1
      simpa using hx

/-- dropWhile keeps the last element of a list it does not empty. -/
theorem getLast?_dropWhile {p : Char → Bool} {l : List Char}
    (h : l.dropWhile p ≠ []) : (l.dropWhile p).getLast? = l.getLast? := by
  induction l with
  | nil => simp [List.dropWhile_nil] at h
  | cons x xs ih =>
    rw [List.dropWhile_cons] at h ⊢
    by_cases hx : p x = true
    · rw [if_pos hx] at h ⊢
      have hxs : xs ≠ [] := by
        intro he; subst he; simp [List.dropWhile_nil] at h
      rw [ih h]
      cases xs with
      | nil => cases hxs rfl
      | cons y ys => rw [List.getLast?_cons_cons]
    · rw [if_neg hx]

/-- A list whose head the class rejects is untouched by dropWhile. -/
theorem dropWhile_eq_self_of_head {p : Char → Bool} {l : List Char}
    (h : ∀ c, l.head? = some c → p c = false) : l.dropWhile p = l := by
  cases l with
  | nil => rfl
  | cons x xs =>
    rw [List.dropWhile_cons, if_neg]
    simp [h x rfl]

/-- Non-whitespace characters survive the strip. -/
theorem mem_pyStrip {c : Char} {l : List Char}
    (h : c ∈ l) (hc : pyIsSpace c = false) : c ∈ pyStrip l := by
  unfold pyStrip
  rw [List.mem_reverse]
  exact mem_dropWhile_of_not (by rw [List.mem_reverse]; exact mem_dropWhile_of_not h hc) hc

/-- Every character of the strip comes from the list. -/
theorem pyStrip_subset {c : Char} {l : List Char} (h : c ∈ pyStrip l) : c ∈ l := by
  unfold pyStrip at h
  rw [List.mem_reverse] at h
  have h1 := (List.dropWhile_sublist pyIsSpace).mem h
  rw [List.mem_reverse] at h1
  exact (List.dropWhile_sublist pyIsSpace).mem h1

/-- The head of a stripped list is not whitespace. -/
theorem pyStrip_head {l : List Char} {c : Char}
    (h : (pyStrip l).head? = some c) : pyIsSpace c = false := by
  unfold pyStrip at h
  rw [List.head?_reverse] at h
  have hne : (List.dropWhile pyIsSpace l).reverse.dropWhile pyIsSpace ≠ [] := by
    intro he; rw [he] at h; cases h
  rw [getLast?_dropWhile hne, List.getLast?_reverse] at h
  cases hd : List.dropWhile pyIsSpace l with
  | nil => rw [hd] at h; cases h
  | cons y ys =>
    rw [hd, List.head?_cons] at h
    injection h with h1
    subst h1
    exact dropWhile_head_false hd

/-- The last character of a stripped list is not whitespace. -/
theorem pyStrip_last {l : List Char} {c : Char}
    (h : (pyStrip l).getLast? = some c) : pyIsSpace c = false := by
  unfold pyStrip at h
  rw [List.getLast?_reverse] at h
  cases hd : (List.dropWhile pyIsSpace l).reverse.dropWhile pyIsSpace with
  | nil => rw [hd] at h; cases h
  | cons y ys =>
    rw [hd, List.head?_cons] at h
    injection h with h1
    subst h1
    exact dropWhile_head_false hd

/-- Stripping a list whose ends are already clean changes nothing. -/
theorem pyStrip_eq_self {l : List Char}
    (h1 : ∀ c, l.head? = some c → pyIsSpace c = false)
    (h2 : ∀ c, l.getLast? = some c → pyIsSpace c = false) : pyStrip l = l := by
  unfold pyStrip
  rw [dropWhile_eq_self_of_head h1, dropWhile_eq_self_of_head
    (fun c hc => h2 c (by rwa [List.head?_reverse] at hc)), List.reverse_reverse]

/-- Stripping is idempotent. -/
theorem pyStrip_idem (l : List Char) : pyStrip (pyStrip l) = pyStrip l :=
  pyStrip_eq_self (fun _ hc => pyStrip_head hc) (fun _ hc => pyStrip_last hc)

/-- Stripping a string twice equals stripping it once. -/
theorem pyStripStr_idem (s : String) : pyStripStr (pyStripStr s) = pyStripStr s := by
  unfold pyStripStr
  rw [pyStrip_idem]

/-- A digit-free list makes the numeric search fail. -/
theorem findNum_none {u : List Char} (h : u.any Char.isDigit = false) :
    findNum u = none := by
  induction u with
  | nil => rfl
  | cons c rest ih =>
    simp only [List.any_cons, Bool.or_eq_false_iff] at h
    simp only [findNum, h.1, Bool.false_eq_true, if_false]
    exact ih h.2

/-- At a digit, numAt yields a maximal numeric literal together with the
split of the scanned list. -/
theorem numAt_spec {c : Char} (rest : List Char) (hc : c.isDigit = true) :
    ∃ b, c :: rest = numAt (c :: rest) ++ b ∧ NumShape (numAt (c :: rest)) ∧
      RightMaximal (numAt (c :: rest)) b := by
  have hd : (c :: rest).takeWhile Char.isDigit ≠ [] := by
    simp [List.takeWhile_cons, hc]
  have hAll : AllDigits ((c :: rest).takeWhile Char.isDigit) :=
    fun _ hx => List.mem_takeWhile_imp hx
  have hsplit : (c :: rest).takeWhile Char.isDigit ++ (c :: rest).dropWhile Char.isDigit
      = c :: rest := List.takeWhile_append_dropWhile _ _
  unfold numAt
  by_cases hdot : ((c :: rest).dropWhile Char.isDigit).head? = some '.' ∧
      (((c :: rest).dropWhile Char.isDigit).drop 1).takeWhile Char.isDigit ≠ []
  · rw [if_pos hdot]
    obtain ⟨hh, hf⟩ := hdot
    obtain ⟨r1, hr1⟩ : ∃ r1, (c :: rest).dropWhile Char.isDigit = '.' :: r1 := by
      cases hr : (c :: rest).dropWhile Char.isDigit with
      | nil => rw [hr] at hh; cases hh
      | cons x xs =>
        rw [hr, List.head?_cons] at hh
        injection hh with h1
        subst h1
        exact ⟨xs, rfl⟩
    rw [hr1] at hf ⊢
    simp only [List.drop_succ_cons, List.drop_zero] at hf ⊢
    refine ⟨r1.dropWhile Char.isDigit, ?_, ?_, ?_⟩
    · calc c :: rest
          = (c :: rest).takeWhile Char.isDigit ++ (c :: rest).dropWhile Char.isDigit :=
            hsplit.symm
        _ = (c :: rest).takeWhile Char.isDigit ++ '.' :: r1 := by rw [hr1]
        _ = (c :: rest).takeWhile Char.isDigit ++
              '.' :: (r1.takeWhile Char.isDigit ++ r1.dropWhile Char.isDigit) := by
            rw [List.takeWhile_append_dropWhile]
        _ = ((c :: rest).takeWhile Char.isDigit ++ '.' :: r1.takeWhile Char.isDigit) ++
              r1.dropWhile Char.isDigit := by
            simp [List.append_assoc]
    · exact Or.inr ⟨(c :: rest).takeWhile Char.isDigit, r1.takeWhile Char.isDigit,
        hd, hf, hAll, fun _ hx => List.mem_takeWhile_imp hx, rfl⟩
    · constructor
      · cases hb : r1.dropWhile Char.isDigit with
        | nil => simp
        | cons y ys => simp [dropWhile_head_false hb]
      · left
        simp [List.mem_append]
  · rw [if_neg hdot]
    refine ⟨(c :: rest).dropWhile Char.isDigit, hsplit.symm,
      Or.inl ⟨(c :: rest).takeWhile Char.isDigit, hd, hAll, rfl⟩, ?_, ?_⟩
    · cases hb : (c :: rest).dropWhile Char.isDigit with
      | nil => simp
      | cons y ys => simp [dropWhile_head_false hb]
    · right
      intro r' hr'
      have hh : ((c :: rest).dropWhile Char.isDigit).head? = some '.' := by
        rw [hr', List.head?_cons]
      have htw : (((c :: rest).dropWhile Char.isDigit).drop 1).takeWhile Char.isDigit = [] := by
        by_contra hne
        exact hdot ⟨hh, hne⟩
      rw [hr'] at htw
      simp only [List.drop_succ_cons, List.drop_zero] at htw
      cases hr'' : r' with
      | nil => simp
      | cons z zs =>
        rw [hr'', List.takeWhile_cons] at htw
        by_cases hz : z.isDigit = true
        · rw [if_pos hz] at htw; cases htw
        · simp [List.head?_cons]
          simpa using hz

/-- The numeric search on a list holding a digit returns the first
maximal numeric substring. -/
theorem findNum_spec {u : List Char} (h : u.any Char.isDigit = true) :
    ∃ t, IsFirstMaximalNum u t ∧ findNum u = some t := by
  induction u with
  | nil => cases h
  | cons c rest ih =>
    by_cases hc : c.isDigit = true
    · refine ⟨numAt (c :: rest), ⟨[], ?_⟩, by simp [findNum, hc]⟩
      obtain ⟨b, hsplit, hshape, hmax⟩ := numAt_spec rest hc
      exact ⟨b, by simpa using hsplit, fun x hx => absurd hx (List.not_mem_nil x),
        hshape, hmax⟩
    · have h2 : rest.any Char.isDigit = true := by
        simp only [List.any_cons] at h
        rcases Bool.or_eq_true_iff.1 h with h1 | h1
        · exact absurd h1 hc
        · exact h1
      obtain ⟨t, ⟨a, b, hu, ha, hs, hm⟩, hf⟩ := ih h2
      refine ⟨t, ⟨c :: a, b, by simp [hu], ?_, hs, hm⟩,
        by simp only [findNum, hc, Bool.false_eq_true, if_false]; exact hf⟩
      intro x hx
      rcases List.mem_cons.1 hx with rfl | hx2
      · simpa using hc
      · exact ha x hx2

/-- A failing scan over the whole list makes the slash search fail. -/
theorem findUnit_none {u : List Char} (h : anyUnitMatch u = false) :
    findUnit u = none := by
  induction u with
  | nil => rfl
  | cons c rest ih =>
    simp only [anyUnitMatch, Bool.or_eq_false_iff] at h
    by_cases hc : c = '/'
    · have hw : (rest.dropWhile pyIsSpace).takeWhile isWordChar = [] := by
        have h1 := h.1
        rw [hc] at h1
        simpa using h1
      simp only [findUnit, if_pos hc, if_pos hw]
      exact ih h.2
    · simp only [findUnit, if_neg hc]
      exact ih h.2

/-- A successful scan yields the first unit word together with the
decomposition witnessing leftmost-match semantics. -/
theorem findUnit_spec {u : List Char} (h : anyUnitMatch u = true) :
    ∃ w, IsFirstUnit u w ∧ findUnit u = some w := by
  induction u with
  | nil => cases h
  | cons c rest ih =>
    by_cases hc : c = '/'
    · subst hc
      by_cases hw : (rest.dropWhile pyIsSpace).takeWhile isWordChar = []
      · have h2 : anyUnitMatch rest = true := by
          simp only [anyUnitMatch, Bool.or_eq_true_iff] at h
          rcases h with h1 | h1
          · exact absurd hw (by simpa using (Bool.and_eq_true_iff.1 h1).2)
          · exact h1
        obtain ⟨w, ⟨a, tail, hu, hwdef, hwne, hfirst⟩, hf⟩ := ih h2
        refine ⟨w, ⟨'/' :: a, tail, by simp [hu], hwdef, hwne, ?_⟩,
          by simpa [findUnit, hw] using hf⟩
        intro a1 a2 h12
        cases a1 with
        | nil =>
          simp only [List.nil_append] at h12
          injection h12 with _ h12'
          subst h12'
          rw [← hu]
          exact hw
        | cons x a1' =>
          injection h12 with _ h12'
          exact hfirst a1' a2 h12'
      · refine ⟨(rest.dropWhile pyIsSpace).takeWhile isWordChar,
          ⟨[], rest, rfl, rfl, hw, ?_⟩,
          by simp [findUnit, hw]⟩
        intro a1 a2 h12
        exact absurd h12.symm (List.append_ne_nil_of_right_ne_nil a1 (List.cons_ne_nil _ _))
    · have h2 : anyUnitMatch rest = true := by
        simp only [anyUnitMatch, Bool.or_eq_true_iff] at h
        rcases h with h1 | h1
        · exact absurd (by simpa using (Bool.and_eq_true_iff.1 h1).1) hc
        · exact h1
      obtain ⟨w, ⟨a, tail, hu, hwdef, hwne, hfirst⟩, hf⟩ := ih h2
      refine ⟨w, ⟨c :: a, tail, by simp [hu], hwdef, hwne, ?_⟩,
        by simp only [findUnit, if_neg hc]; exact hf⟩
      intro a1 a2 h12
      cases a1 with
      | nil =>
        exfalso
        simp only [List.nil_append] at h12
        injection h12 with hx _
        exact hc hx
      | cons x a1' =>
        injection h12 with _ h12'
        exact hfirst a1' a2 h12'

/-- Digits are neither commas nor rupee signs. -/
theorem digit_not_comma_rupee {c : Char} (hd : c.isDigit = true) :
    (!(c = ',' || c = '₹')) = true := by
  by_cases h1 : c = ','
  · subst h1; exact absurd hd (by decide)
  · by_cases h2 : c = '₹'
    · subst h2; exact absurd hd (by decide)
    · simp [h1, h2]

/-- Digits are not whitespace. -/
theorem digit_not_space {c : Char} (hd : c.isDigit = true) : pyIsSpace c = false := by
  cases hs : pyIsSpace c
  · rfl
  · exfalso
    simp only [pyIsSpace, Bool.or_eq_true_iff, decide_eq_true_eq] at hs
    rcases hs with ((((h | h) | h) | h) | h) | h <;> subst h <;> exact absurd hd (by decide)

/-- Word characters are not whitespace. -/
theorem word_not_space {c : Char} (hw : isWordChar c = true) : pyIsSpace c = false := by
  cases hs : pyIsSpace c
  · rfl
  · exfalso
    simp only [pyIsSpace, Bool.or_eq_true_iff, decide_eq_true_eq] at hs
    rcases hs with ((((h | h) | h) | h) | h) | h <;> subst h <;> exact absurd hw (by decide)

/-- A digit of the raw price survives deleting commas and rupee signs
and stripping. -/
theorem any_digit_cleaned {s : String} (h : s.data.any Char.isDigit = true) :
    (pyStrip (removeCommaRupee s.data)).any Char.isDigit = true := by
  rw [List.any_eq_true] at h ⊢
  obtain ⟨c, hc, hdig⟩ := h
  refine ⟨c, ?_, hdig⟩
  apply mem_pyStrip _ (digit_not_space hdig)
  rw [removeCommaRupee, List.mem_filter]
  exact ⟨hc, digit_not_comma_rupee hdig⟩

/-- A digit of the cleaned price was a digit of the raw price. -/
theorem cleaned_any_digit {s : String}
    (h : (pyStrip (removeCommaRupee s.data)).any Char.isDigit = true) :
    s.data.any Char.isDigit = true := by
  rw [List.any_eq_true] at h ⊢
  obtain ⟨c, hc, hdig⟩ := h
  refine ⟨c, ?_, hdig⟩
  have h1 := pyStrip_subset hc
  rw [removeCommaRupee, List.mem_filter] at h1
  exact h1.1

/-- Claim C1: clean_price returns the value of the first maximal numeric
substring, taken after deleting commas and rupee signs and stripping
whitespace; it returns none, without raising, on a missing price, an
empty price, or a price holding no digit. -/
theorem clean_price_spec (s : String) :
    clean_price none = none ∧
    clean_price (some ("")) = none ∧
    (s.data.any Char.isDigit = false → clean_price (some s) = none) ∧
    (s.data.any Char.isDigit = true →
      ∃ t, IsFirstMaximalNum (pyStrip (removeCommaRupee s.data)) t ∧
        clean_price (some s) = some (decValue t)) := by
  refine ⟨rfl, rfl, ?_, ?_⟩
  · intro h
    by_cases hs : s = ""
    · subst hs; rfl
    · have hcl : (pyStrip (removeCommaRupee s.data)).any Char.isDigit = false := by
        cases hca : (pyStrip (removeCommaRupee s.data)).any Char.isDigit
        · rfl
        · rw [cleaned_any_digit hca] at h; cases h
      simp only [clean_price]
      rw [if_neg hs, findNum_none hcl]
  · intro h
    have hs : ¬(s = "") := by
      intro he
      subst he
      cases h
    obtain ⟨t, hfirst, hf⟩ := findNum_spec (any_digit_cleaned h)
    refine ⟨t, hfirst, ?_⟩
    simp only [clean_price]
    rw [if_neg hs, hf]

/-- Witness for claim C1 at a concrete price string. -/
theorem clean_price_spec_witness :
    ∃ t, IsFirstMaximalNum (pyStrip (removeCommaRupee ("₹ 1,500/Piece").data)) t ∧
      clean_price (some ("₹ 1,500/Piece")) = some (decValue t) :=
  (clean_price_spec ("₹ 1,500/Piece")).2.2.2 (by decide)

/-- Claim C2: extract_unit returns the capitalised first slash-word, the
label Unit/Request when no slash-word exists, and Price on Request on a
missing or empty price. -/
theorem extract_unit_spec (s : String) :
    extract_unit none = "Price on Request" ∧
    extract_unit (some ("")) = "Price on Request" ∧
    (s ≠ "" → anyUnitMatch s.data = false → extract_unit (some s) = "Unit/Request") ∧
    (s ≠ "" → anyUnitMatch s.data = true →
      ∃ w, IsFirstUnit s.data w ∧ extract_unit (some s) = String.mk (pyCapitalize w)) := by
  refine ⟨rfl, rfl, ?_, ?_⟩
  · intro hs h
    simp only [extract_unit]
    rw [if_neg hs, findUnit_none h]
  · intro hs h
    obtain ⟨w, hfirst, hf⟩ := findUnit_spec h
    refine ⟨w, hfirst, ?_⟩
    simp only [extract_unit]
    rw [if_neg hs, hf]
    obtain ⟨a, tail, hu, hwdef, hwne, hfl⟩ := hfirst
    have hword : ∀ c ∈ w, isWordChar c = true := by
      intro c hcw
      rw [hwdef] at hcw
      exact List.mem_takeWhile_imp hcw
    have hstrip : pyStrip w = w := by
      apply pyStrip_eq_self
      · intro c hcc
        have : c ∈ w := by
          cases w with
          | nil => cases hcc
          | cons y ys =>
            rw [List.head?_cons] at hcc
            injection hcc with h1
            subst h1
            exact List.mem_cons_self _ _
        exact word_not_space (hword c this)
      · intro c hcc
        have : c ∈ w := List.mem_of_mem_getLast? hcc
        exact word_not_space (hword c this)
    show String.mk (pyCapitalize (pyStrip w)) = String.mk (pyCapitalize w)
    rw [hstrip]

/-- Witness for claim C2 at a concrete price string. -/
theorem extract_unit_spec_witness :
    ∃ w, IsFirstUnit ("₹ 1,500/Piece").data w ∧
      extract_unit (some ("₹ 1,500/Piece")) = String.mk (pyCapitalize w) :=
  (extract_unit_spec ("₹ 1,500/Piece")).2.2.2 (by decide) (by decide)

/-- The scraping loop distributes over concatenation of price tags. -/
theorem scrapeListings_append (l1 l2 : List PriceTag) :
    scrapeListings (l1 ++ l2) = scrapeListings l1 ++ scrapeListings l2 := by
  induction l1 with
  | nil => rfl
  | cons p ps ih =>
    rw [List.cons_append]
    cases h : extractRow p with
    | error e =>
      simp only [scrapeListings, h]
      exact ih
    | ok o =>
      cases o with
      | none =>
        simp only [scrapeListings, h]
        exact ih
      | some r =>
        simp only [scrapeListings, h, ih, List.cons_append]

/-- Claim C3: a price tag whose processing raises contributes no row,
leaves the rows of the earlier tags unchanged, and the loop continues
with the remaining tags. -/
theorem scraper_skip_on_error (pre post : List PriceTag) (p : PriceTag)
    (h : extractRow p = Except.error ()) :
    scrapeListings (pre ++ p :: post) = scrapeListings pre ++ scrapeListings post := by
  rw [scrapeListings_append]
  congr 1
  simp only [scrapeListings, h]

/-- Witness for claim C3: a tag whose ancestor lookup raises is skipped
between two extracted tags. -/
theorem scraper_skip_on_error_witness :
    extractRow ⟨("₹ 100"), none⟩ = Except.error () ∧
    scrapeListings ([⟨("₹ 99/Kg"), some ⟨[], [], [], []⟩⟩] ++
        (⟨("₹ 100"), none⟩ : PriceTag) :: [⟨("₹ 7/Box"), some ⟨[], [], [], []⟩⟩]) =
      scrapeListings [⟨("₹ 99/Kg"), some ⟨[], [], [], []⟩⟩] ++
        scrapeListings [⟨("₹ 7/Box"), some ⟨[], [], [], []⟩⟩] :=
  ⟨rfl, scraper_skip_on_error [⟨("₹ 99/Kg"), some ⟨[], [], [], []⟩⟩]
    [⟨("₹ 7/Box"), some ⟨[], [], [], []⟩⟩] ⟨("₹ 100"), none⟩ rfl⟩

/-- Claim C4: inside a container each of the four lookups falls back to
its default on an empty element list and uses the first element
otherwise, and the row always joins the listings. -/
theorem container_fallback_defaults (pre post : List PriceTag) (p : PriceTag) (c : Container)
    (hc : p.container = some c) (hne : pyStripStr p.text ≠ "")
    (hlen : (pyStripStr p.text).length ≤ 25) :
    ∃ r : Row,
      extractRow p = Except.ok (some r) ∧
      scrapeListings (pre ++ p :: post) = scrapeListings pre ++ r :: scrapeListings post ∧
      r.price = pyStripStr p.text ∧
      (c.nameEls = [] → r.product = "Unknown Product") ∧
      (∀ e rest, c.nameEls = e :: rest → r.product = pyStripStr e.text) ∧
      (c.linkEls = [] → r.link = "#") ∧
      (∀ e rest, c.linkEls = e :: rest → r.link = e.href) ∧
      (c.sellerEls = [] → r.seller = "Contact Seller") ∧
      (∀ e rest, c.sellerEls = e :: rest → r.seller = pyStripStr e.text) ∧
      (c.locEls = [] → r.location = "India") ∧
      (∀ e rest, c.locEls = e :: rest → r.location = pyStripStr e.text) := by
  have hcond : ¬(pyStripStr p.text = "" ∨ 25 < (pyStripStr p.text).length) :=
    not_or.mpr ⟨hne, Nat.not_lt.mpr hlen⟩
  have hok : extractRow p = Except.ok (some ⟨firstTextD c.nameEls ("Unknown Product"),
      pyStripStr p.text, firstTextD c.sellerEls ("Contact Seller"),
      firstTextD c.locEls ("India"), firstHrefD c.linkEls ("#")⟩) := by
    unfold extractRow
    rw [if_neg hcond, hc]
  refine ⟨_, hok, ?_, rfl, ?_, ?_, ?_, ?_, ?_, ?_, ?_, ?_⟩
  · rw [scrapeListings_append]
    congr 1
    simp only [scrapeListings, hok]
  · intro h; rw [h]; rfl
  · intro e rest h; rw [h]; rfl
  · intro h; rw [h]; rfl
  · intro e rest h; rw [h]; rfl
  · intro h; rw [h]; rfl
  · intro e rest h; rw [h]; rfl
  · intro h; rw [h]; rfl
  · intro e rest h; rw [h]; rfl

/-- Witness for claim C4 at a concrete tag whose four lookups are all
empty. -/
theorem container_fallback_defaults_witness :
    ∃ r : Row,
      extractRow ⟨("₹ 42/Kg"), some ⟨[], [], [], []⟩⟩ = Except.ok (some r) ∧
      scrapeListings ([] ++ (⟨("₹ 42/Kg"), some ⟨[], [], [], []⟩⟩ : PriceTag) :: []) =
        scrapeListings [] ++ r :: scrapeListings [] ∧
      r.price = pyStripStr ("₹ 42/Kg") ∧
      ((Container.mk [] [] [] []).nameEls = [] → r.product = "Unknown Product") ∧
      (∀ e rest, (Container.mk [] [] [] []).nameEls = e :: rest →
        r.product = pyStripStr e.text) ∧
      ((Container.mk [] [] [] []).linkEls = [] → r.link = "#") ∧
      (∀ e rest, (Container.mk [] [] [] []).linkEls = e :: rest → r.link = e.href) ∧
      ((Container.mk [] [] [] []).sellerEls = [] → r.seller = "Contact Seller") ∧
      (∀ e rest, (Container.mk [] [] [] []).sellerEls = e :: rest →
        r.seller = pyStripStr e.text) ∧
      ((Container.mk [] [] [] []).locEls = [] → r.location = "India") ∧
      (∀ e rest, (Container.mk [] [] [] []).locEls = e :: rest →
        r.location = pyStripStr e.text) :=
  container_fallback_defaults [] [] ⟨("₹ 42/Kg"), some ⟨[], [], [], []⟩⟩ ⟨[], [], [], []⟩
    rfl (by decide) (by decide)

/-- Keys of rows kept by dedupBy avoid the seen set. -/
theorem mem_dedupBy_not_seen :
    ∀ (l : List Row) (seen : List (String × String)) (r : Row),
      r ∈ dedupBy l seen → rowKey r ∉ seen := by
  intro l
  induction l with
  | nil =>
    intro seen r h
    cases h
  | cons q qs ih =>
    intro seen r h
    by_cases hq : rowKey q ∈ seen
    · rw [dedupBy, if_pos hq] at h
      exact ih seen r h
    · rw [dedupBy, if_neg hq] at h
      rcases List.mem_cons.1 h with rfl | h2
      · exact hq
      · intro hr
        exact ih _ r h2 (List.mem_cons_of_mem _ hr)

/-- Rows kept by dedupBy come from the input listings. -/
theorem mem_dedupBy_sub :
    ∀ (l : List Row) (seen : List (String × String)) (r : Row),
      r ∈ dedupBy l seen → r ∈ l := by
  intro l
  induction l with
  | nil =>
    intro seen r h
    cases h
  | cons q qs ih =>
    intro seen r h
    by_cases hq : rowKey q ∈ seen
    · rw [dedupBy, if_pos hq] at h
      exact List.mem_cons_of_mem _ (ih seen r h)
    · rw [dedupBy, if_neg hq] at h
      rcases List.mem_cons.1 h with rfl | h2
      · exact List.mem_cons_self _ _
      · exact List.mem_cons_of_mem _ (ih _ r h2)

/-- dedupBy produces rows with pairwise distinct keys. -/
theorem dedupBy_pairwise :
    ∀ (l : List Row) (seen : List (String × String)),
      (dedupBy l seen).Pairwise (fun a b => rowKey a ≠ rowKey b) := by
  intro l
  induction l with
  | nil =>
    intro seen
    exact List.Pairwise.nil
  | cons q qs ih =>
    intro seen
    by_cases hq : rowKey q ∈ seen
    · rw [dedupBy, if_pos hq]
      exact ih seen
    · rw [dedupBy, if_neg hq]
      refine List.Pairwise.cons ?_ (ih _)
      intro b hb he
      exact mem_dedupBy_not_seen qs _ b hb (by rw [← he]; exact List.mem_cons_self _ _)

/-- Per-key characterisation of dedupBy: for a fresh key the first
occurrence survives, for a seen key nothing does. -/
theorem dedupBy_filter_key :
    ∀ (l : List Row) (seen : List (String × String)) (k : String × String),
      (dedupBy l seen).filter (fun r => decide (rowKey r = k)) =
        if k ∈ seen then [] else (l.filter (fun r => decide (rowKey r = k))).take 1 := by
  intro l
  induction l with
  | nil =>
    intro seen k
    by_cases hk : k ∈ seen
    · rw [if_pos hk]; rfl
    · rw [if_neg hk]; rfl
  | cons q qs ih =>
    intro seen k
    by_cases hq : rowKey q ∈ seen
    · rw [dedupBy, if_pos hq, ih]
      by_cases hk : k ∈ seen
      · rw [if_pos hk, if_pos hk]
      · rw [if_neg hk, if_neg hk]
        have hne : ¬(rowKey q = k) := fun he => hk (he ▸ hq)
        rw [List.filter_cons]
        simp [hne]
    · rw [dedupBy, if_neg hq]
      by_cases hqk : rowKey q = k
      · subst hqk
        rw [if_neg hq, List.filter_cons, List.filter_cons]
        simp only [decide_True, if_pos]
        rw [ih]
        simp [List.mem_cons_self]
      · rw [List.filter_cons]
        simp only [hqk, decide_False, Bool.false_eq_true, if_false]
        rw [ih]
        have h1 : k ∈ rowKey q :: seen ↔ k ∈ seen := by
          constructor
          · intro h
            rcases List.mem_cons.1 h with he | h2
            · exact absurd he.symm hqk
            · exact h2
          · exact List.mem_cons_of_mem _
        by_cases hk : k ∈ seen
        · rw [if_pos (h1.mpr hk), if_pos hk]
        · rw [if_neg (fun h => hk (h1.mp h)), if_neg hk, List.filter_cons]
          simp [hqk]

/-- Claim C5: the returned frame has pairwise distinct Product-Seller
pairs; per pair, only the first scraped occurrence survives
drop_duplicates. -/
theorem dedup_product_seller (tags : List PriceTag) :
    (run_scraper tags).Pairwise (fun a b => dKey a ≠ dKey b) ∧
    ∀ k : String × String,
      (drop_duplicates (scrapeListings tags)).filter (fun r => decide (rowKey r = k)) =
        ((scrapeListings tags).filter (fun r => decide (rowKey r = k))).take 1 := by
  constructor
  · unfold run_scraper
    have hsym : ∀ {x y : DRow}, dKey x ≠ dKey y → dKey y ≠ dKey x :=
      fun h he => h he.symm
    refine (List.Perm.pairwise_iff hsym (List.perm_insertionSort rowR _)).mpr ?_
    rw [List.pairwise_map]
    exact dedupBy_pairwise (scrapeListings tags) []
  · intro k
    unfold drop_duplicates
    rw [dedupBy_filter_key]
    simp

/-- Strings with equal character lists are equal. -/
theorem string_data_ext {s t : String} (h : s.data = t.data) : s = t := by
  cases s
  cases t
  exact congrArg String.mk h

/-- Transitivity of the code-point lexicographic order. -/
theorem strLt_trans : ∀ {x y z : List Char},
    strLt x y = true → strLt y z = true → strLt x z = true := by
  intro x
  induction x with
  | nil =>
    intro y z h1 h2
    cases y with
    | nil => cases h1
    | cons b bs =>
      cases z with
      | nil => cases h2
      | cons c cs => rfl
  | cons a as ih =>
    intro y z h1 h2
    cases y with
    | nil => cases h1
    | cons b bs =>
      cases z with
      | nil => cases h2
      | cons c cs =>
        simp only [strLt, Bool.or_eq_true_iff, Bool.and_eq_true_iff,
          decide_eq_true_eq] at h1 h2 ⊢
        rcases h1 with h1 | ⟨hab, h1⟩
        · rcases h2 with h2 | ⟨hbc, h2⟩
          · exact Or.inl (lt_trans h1 h2)
          · exact Or.inl (hbc ▸ h1)
        · rcases h2 with h2 | ⟨hbc, h2⟩
          · exact Or.inl (hab.symm ▸ h2)
          · exact Or.inr ⟨hab.trans hbc, ih h1 h2⟩

/-- Totality of the code-point lexicographic order. -/
theorem strLt_total : ∀ (x y : List Char),
    strLt x y = true ∨ x = y ∨ strLt y x = true := by
  intro x
  induction x with
  | nil =>
    intro y
    cases y with
    | nil => exact Or.inr (Or.inl rfl)
    | cons b bs => exact Or.inl rfl
  | cons a as ih =>
    intro y
    cases y with
    | nil => exact Or.inr (Or.inr rfl)
    | cons b bs =>
      rcases lt_trichotomy a b with h | h | h
      · refine Or.inl ?_
        simp only [strLt, Bool.or_eq_true_iff, decide_eq_true_eq]
        exact Or.inl h
      · subst h
        rcases ih bs with h2 | h2 | h2
        · refine Or.inl ?_
          simp only [strLt, Bool.or_eq_true_iff, Bool.and_eq_true_iff, decide_eq_true_eq]
          exact Or.inr ⟨trivial, h2⟩
        · exact Or.inr (Or.inl (by rw [h2]))
        · refine Or.inr (Or.inr ?_)
          simp only [strLt, Bool.or_eq_true_iff, Bool.and_eq_true_iff, decide_eq_true_eq]
          exact Or.inr ⟨trivial, h2⟩
      · refine Or.inr (Or.inr ?_)
        simp only [strLt, Bool.or_eq_true_iff, decide_eq_true_eq]
        exact Or.inl h

/-- Transitivity of the missing-last price order. -/
theorem optLE_trans : ∀ {a b c : Option ℚ},
    optLE a b = true → optLE b c = true → optLE a c = true := by
  intro a b c h1 h2
  cases a with
  | none =>
    cases c with
    | none => rfl
    | some z =>
      cases b with
      | none => cases h2
      | some y => cases h1
  | some x =>
    cases c with
    | none => rfl
    | some z =>
      cases b with
      | none => cases h2
      | some y =>
        simp only [optLE, decide_eq_true_eq] at h1 h2 ⊢
        exact le_trans h1 h2

/-- Totality of the missing-last price order. -/
theorem optLE_total : ∀ (a b : Option ℚ), optLE a b = true ∨ optLE b a = true := by
  intro a b
  cases a with
  | none =>
    cases b with
    | none => exact Or.inl rfl
    | some y => exact Or.inr rfl
  | some x =>
    cases b with
    | none => exact Or.inl rfl
    | some y =>
      simp only [optLE, decide_eq_true_eq]
      exact le_total x y

instance : IsTrans DRow rowR := by
  refine ⟨?_⟩
  intro a b c h1 h2
  unfold rowR at h1 h2 ⊢
  rcases h1 with h1 | ⟨he1, hp1⟩
  · rcases h2 with h2 | ⟨he2, hp2⟩
    · exact Or.inl (strLt_trans h1 h2)
    · exact Or.inl (by rw [← he2]; exact h1)
  · rcases h2 with h2 | ⟨he2, hp2⟩
    · exact Or.inl (by rw [he1]; exact h2)
    · exact Or.inr ⟨he1.trans he2, optLE_trans hp1 hp2⟩

instance : IsTotal DRow rowR := by
  refine ⟨?_⟩
  intro a b
  unfold rowR
  rcases strLt_total a.unit.data b.unit.data with h | h | h
  · exact Or.inl (Or.inl h)
  · have he : a.unit = b.unit := string_data_ext h
    rcases optLE_total a.numericPrice b.numericPrice with h2 | h2
    · exact Or.inl (Or.inr ⟨he, h2⟩)
    · exact Or.inr (Or.inr ⟨he.symm, h2⟩)
  · exact Or.inr (Or.inl h)

/-- Claim C6: a non-empty returned frame is sorted ascending by Unit and,
among equal Units, ascending by Numeric Price with missing prices last;
every row carries Numeric Price = clean_price(Price) and
Unit = extract_unit(Price). -/
theorem result_sorted_derived (tags : List PriceTag)
    (_hne : run_scraper tags ≠ []) :
    List.Sorted rowR (run_scraper tags) ∧
    ∀ r ∈ run_scraper tags, r.numericPrice = clean_price (some r.price) ∧
      r.unit = extract_unit (some r.price) := by
  constructor
  · exact List.sorted_insertionSort rowR _
  · intro r hr
    have hr2 : r ∈ (drop_duplicates (scrapeListings tags)).map addDerived :=
      ((List.perm_insertionSort rowR _).mem_iff).mp hr
    obtain ⟨r0, _, rfl⟩ := List.mem_map.1 hr2
    exact ⟨rfl, rfl⟩

/-- Witness for claim C6 on a one-tag scrape. -/
theorem result_sorted_derived_witness :
    run_scraper [⟨("₹ 100/Kg"), some ⟨[], [], [], []⟩⟩] ≠ [] ∧
    (List.Sorted rowR (run_scraper [⟨("₹ 100/Kg"), some ⟨[], [], [], []⟩⟩]) ∧
     ∀ r ∈ run_scraper [⟨("₹ 100/Kg"), some ⟨[], [], [], []⟩⟩],
       r.numericPrice = clean_price (some r.price) ∧
       r.unit = extract_unit (some r.price)) :=
  ⟨by decide, result_sorted_derived [⟨("₹ 100/Kg"), some ⟨[], [], [], []⟩⟩] (by decide)⟩

/-- Claim C7: selecting All Cities leaves the frame unchanged; selecting
a city keeps exactly the rows of that city, in their original order. -/
theorem final_view_filter (rows : List DRow) (city : String) :
    final_view ("All Cities") rows = rows ∧
    (city ≠ "All Cities" →
      (final_view city rows).Sublist rows ∧
      (∀ r, r ∈ final_view city rows ↔ r ∈ rows ∧ r.location = city) ∧
      (∀ r : DRow, (final_view city rows).count r =
        if r.location = city then rows.count r else 0)) := by
  constructor
  · simp [final_view]
  · intro hc
    have hv : final_view city rows = rows.filter (fun r => decide (r.location = city)) := by
      rw [final_view, if_neg hc]
    refine ⟨?_, ?_, ?_⟩
    · rw [hv]
      exact List.filter_sublist rows
    · intro r
      rw [hv, List.mem_filter]
      simp
    · intro r
      rw [hv]
      by_cases hr : r.location = city
      · rw [if_pos hr]
        exact List.count_filter (by simp [hr])
      · rw [if_neg hr]
        refine List.count_eq_zero.mpr ?_
        intro hm
        rw [List.mem_filter] at hm
        exact hr (by simpa using hm.2)

/-- Witness for claim C7 on a two-row frame and the Mumbai filter. -/
theorem final_view_filter_witness :
    (final_view ("Mumbai")
        [⟨("A"), ("₹ 5/Kg"), ("S1"), ("Mumbai"), ("#"), some 5, ("Kg")⟩,
         ⟨("B"), ("₹ 6/Kg"), ("S2"), ("Delhi"), ("#"), some 6, ("Kg")⟩]).Sublist
      [⟨("A"), ("₹ 5/Kg"), ("S1"), ("Mumbai"), ("#"), some 5, ("Kg")⟩,
       ⟨("B"), ("₹ 6/Kg"), ("S2"), ("Delhi"), ("#"), some 6, ("Kg")⟩] ∧
    (∀ r, r ∈ final_view ("Mumbai")
        [⟨("A"), ("₹ 5/Kg"), ("S1"), ("Mumbai"), ("#"), some 5, ("Kg")⟩,
         ⟨("B"), ("₹ 6/Kg"), ("S2"), ("Delhi"), ("#"), some 6, ("Kg")⟩] ↔
      r ∈ [⟨("A"), ("₹ 5/Kg"), ("S1"), ("Mumbai"), ("#"), some 5, ("Kg")⟩,
           ⟨("B"), ("₹ 6/Kg"), ("S2"), ("Delhi"), ("#"), some 6, ("Kg")⟩] ∧
        r.location = "Mumbai") ∧
    (∀ r : DRow, (final_view ("Mumbai")
        [⟨("A"), ("₹ 5/Kg"), ("S1"), ("Mumbai"), ("#"), some 5, ("Kg")⟩,
         ⟨("B"), ("₹ 6/Kg"), ("S2"), ("Delhi"), ("#"), some 6, ("Kg")⟩]).count r =
      if r.location = "Mumbai" then
        ([⟨("A"), ("₹ 5/Kg"), ("S1"), ("Mumbai"), ("#"), some 5, ("Kg")⟩,
          ⟨("B"), ("₹ 6/Kg"), ("S2"), ("Delhi"), ("#"), some 6, ("Kg")⟩] : List DRow).count r
      else 0) :=
  (final_view_filter
    [⟨("A"), ("₹ 5/Kg"), ("S1"), ("Mumbai"), ("#"), some 5, ("Kg")⟩,
     ⟨("B"), ("₹ 6/Kg"), ("S2"), ("Delhi"), ("#"), some 6, ("Kg")⟩] ("Mumbai")).2 (by decide)

/-- A Numeric Price column made of present values collapses filterMap to
those values. -/
theorem filterMap_all_some :
    ∀ (rows : List DRow) (vals : List ℚ),
      rows.map (fun r => r.numericPrice) = vals.map some →
      nonNullPrices rows = vals := by
  intro rows
  induction rows with
  | nil =>
    intro vals h
    cases vals with
    | nil => rfl
    | cons v vs => cases h
  | cons r rs ih =>
    intro vals h
    cases vals with
    | nil => cases h
    | cons v vs =>
      rw [List.map_cons, List.map_cons] at h
      injection h with h1 h2
      have hrs : List.filterMap (fun r => r.numericPrice) rs = vs := ih vs h2
      rw [nonNullPrices, List.filterMap_cons, h1, hrs]

/-- colMin of a non-empty list is its least element. -/
theorem colMin_spec : ∀ (l : List ℚ), l ≠ [] →
    ∃ m, colMin l = some m ∧ m ∈ l ∧ ∀ x ∈ l, m ≤ x := by
  intro l
  induction l with
  | nil =>
    intro h
    cases h rfl
  | cons q qs ih =>
    intro _
    cases qs with
    | nil =>
      refine ⟨q, rfl, List.mem_cons_self _ _, ?_⟩
      intro x hx
      rcases List.mem_cons.1 hx with rfl | hx2
      · exact le_refl _
      · cases hx2
    | cons p ps =>
      obtain ⟨m, hm, hmem, hle⟩ := ih (List.cons_ne_nil p ps)
      refine ⟨min q m, ?_, ?_, ?_⟩
      · show (match colMin (p :: ps) with
            | none => some q
            | some m2 => some (min q m2)) = some (min q m)
        rw [hm]
      · rcases min_cases q m with ⟨he, _⟩ | ⟨he, _⟩
        · rw [he]
          exact List.mem_cons_self _ _
        · rw [he]
          exact List.mem_cons_of_mem _ hmem
      · intro x hx
        rcases List.mem_cons.1 hx with rfl | hx2
        · exact min_le_left _ _
        · exact le_trans (min_le_right q m) (hle x hx2)

/-- Claim C8: on a non-empty result whose prices all parsed, the
Suppliers Found KPI is the row count, the Starting Price KPI is the
least value of the Numeric Price column, and the Avg Market Price KPI is
its arithmetic mean. -/
theorem kpi_metrics_spec (rows : List DRow) (vals : List ℚ)
    (hne : rows ≠ []) (hvals : rows.map (fun r => r.numericPrice) = vals.map some) :
    kpiSuppliersFound rows = rows.length ∧
    vals.length = rows.length ∧
    (∃ m, kpiStartingPrice rows = some m ∧ m ∈ vals ∧ ∀ x ∈ vals, m ≤ x) ∧
    kpiAvgPrice rows = some (vals.sum / (rows.length : ℚ)) := by
  have hnn : nonNullPrices rows = vals := filterMap_all_some rows vals hvals
  have hlen : vals.length = rows.length := by
    have h1 := congrArg List.length hvals
    simpa using h1.symm
  have hvne : vals ≠ [] := by
    intro he
    subst he
    simp only [List.map_nil, List.map_eq_nil_iff] at hvals
    exact hne hvals
  refine ⟨rfl, hlen, ?_, ?_⟩
  · obtain ⟨m, hm, hmem, hle⟩ := colMin_spec vals hvne
    refine ⟨m, ?_, hmem, hle⟩
    rw [kpiStartingPrice, hnn]
    exact hm
  · rw [kpiAvgPrice, hnn, if_neg hvne, hlen]

/-- Witness for claim C8 on a one-row frame. -/
theorem kpi_metrics_spec_witness :
    kpiSuppliersFound [⟨("A"), ("₹ 5"), ("S"), ("India"), ("#"), some 5, ("Unit/Request")⟩] =
      ([⟨("A"), ("₹ 5"), ("S"), ("India"), ("#"), some 5, ("Unit/Request")⟩] : List DRow).length ∧
    ([(5 : ℚ)]).length =
      ([⟨("A"), ("₹ 5"), ("S"), ("India"), ("#"), some 5, ("Unit/Request")⟩] : List DRow).length ∧
    (∃ m, kpiStartingPrice
        [⟨("A"), ("₹ 5"), ("S"), ("India"), ("#"), some 5, ("Unit/Request")⟩] = some m ∧
      m ∈ [(5 : ℚ)] ∧ ∀ x ∈ [(5 : ℚ)], m ≤ x) ∧
    kpiAvgPrice [⟨("A"), ("₹ 5"), ("S"), ("India"), ("#"), some 5, ("Unit/Request")⟩] =
      some (([(5 : ℚ)]).sum /
        ((([⟨("A"), ("₹ 5"), ("S"), ("India"), ("#"), some 5, ("Unit/Request")⟩] :
          List DRow).length : ℚ))) :=
  kpi_metrics_spec [⟨("A"), ("₹ 5"), ("S"), ("India"), ("#"), some 5, ("Unit/Request")⟩]
    [(5 : ℚ)] (by decide) (by decide)

/-- Every row produced by the scraping loop carries the stripped tag
text, non-empty and of length at most 25, as its Price. -/
theorem scrapeListings_price :
    ∀ (tags : List PriceTag) (r : Row), r ∈ scrapeListings tags →
      r.price ≠ "" ∧ r.price.length ≤ 25 ∧ pyStripStr r.price = r.price := by
  intro tags
  induction tags with
  | nil =>
    intro r h
    cases h
  | cons p ps ih =>
    intro r h
    by_cases hcond : pyStripStr p.text = "" ∨ 25 < (pyStripStr p.text).length
    · have hx : extractRow p = Except.ok none := by
        unfold extractRow
        rw [if_pos hcond]
      simp only [scrapeListings, hx] at h
      exact ih r h
    · cases hp : p.container with
      | none =>
        have hx : extractRow p = Except.error () := by
          unfold extractRow
          rw [if_neg hcond, hp]
        simp only [scrapeListings, hx] at h
        exact ih r h
      | some c =>
        have hx : extractRow p = Except.ok (some ⟨firstTextD c.nameEls ("Unknown Product"),
            pyStripStr p.text, firstTextD c.sellerEls ("Contact Seller"),
            firstTextD c.locEls ("India"), firstHrefD c.linkEls ("#")⟩) := by
          unfold extractRow
          rw [if_neg hcond, hp]
        simp only [scrapeListings, hx] at h
        rcases List.mem_cons.1 h with rfl | h2
        · obtain ⟨h1, h2'⟩ := not_or.1 hcond
          exact ⟨h1, Nat.not_lt.1 h2', pyStripStr_idem p.text⟩
        · exact ih r h2

/-- Claim C9: every row of the returned frame has a Price that is a
stripped, non-empty string of length at most 25. -/
theorem price_field_invariant (tags : List PriceTag) (r : DRow)
    (h : r ∈ run_scraper tags) :
    r.price ≠ "" ∧ r.price.length ≤ 25 ∧ pyStripStr r.price = r.price := by
  have h1 : r ∈ (drop_duplicates (scrapeListings tags)).map addDerived :=
    ((List.perm_insertionSort rowR _).mem_iff).mp h
  obtain ⟨r0, hr0, rfl⟩ := List.mem_map.1 h1
  exact scrapeListings_price tags r0 (mem_dedupBy_sub _ [] r0 hr0)

/-- Witness for claim C9 on a one-tag scrape. -/
theorem price_field_invariant_witness :
    (⟨("Unknown Product"), ("₹ 100/Kg"), ("Contact Seller"), ("India"), ("#"),
        some 100, ("Kg")⟩ : DRow) ∈
      run_scraper [⟨("₹ 100/Kg"), some ⟨[], [], [], []⟩⟩] ∧
    (("₹ 100/Kg" : String) ≠ "" ∧ ("₹ 100/Kg" : String).length ≤ 25 ∧
      pyStripStr ("₹ 100/Kg") = "₹ 100/Kg") :=
  ⟨by decide, price_field_invariant [⟨("₹ 100/Kg"), some ⟨[], [], [], []⟩⟩]
    ⟨("Unknown Product"), ("₹ 100/Kg"), ("Contact Seller"), ("India"), ("#"),
      some 100, ("Kg")⟩ (by decide)⟩

/-- Claim C10: one browser session opens at entry and closes by return,
on the normal path and when the body raises; the body outcome passes
through. -/
theorem session_lifecycle (bodyEvents : List SessionEv)
    (bodyResult : Except String (List PriceTag))
    (ho : SessionEv.openS ∉ bodyEvents) (hc : SessionEv.closeS ∉ bodyEvents) :
    (withBrowserSession bodyEvents bodyResult).1.count SessionEv.openS = 1 ∧
    (withBrowserSession bodyEvents bodyResult).1.count SessionEv.closeS = 1 ∧
    (withBrowserSession bodyEvents bodyResult).1.head? = some SessionEv.openS ∧
    (withBrowserSession bodyEvents bodyResult).1.getLast? = some SessionEv.closeS ∧
    (∀ e, bodyResult = Except.error e →
      (withBrowserSession bodyEvents bodyResult).2 = Except.error e) ∧
    (∀ tags, bodyResult = Except.ok tags →
      (withBrowserSession bodyEvents bodyResult).2 = Except.ok (run_scraper tags)) := by
  refine ⟨?_, ?_, rfl, ?_, ?_, ?_⟩
  · show (SessionEv.openS :: (bodyEvents ++ [SessionEv.closeS])).count SessionEv.openS = 1
    rw [List.count_cons, List.count_append, List.count_eq_zero.2 ho]
    decide
  · show (SessionEv.openS :: (bodyEvents ++ [SessionEv.closeS])).count SessionEv.closeS = 1
    rw [List.count_cons, List.count_append, List.count_eq_zero.2 hc]
    decide
  · show (SessionEv.openS :: (bodyEvents ++ [SessionEv.closeS])).getLast? =
      some SessionEv.closeS
    rw [← List.cons_append, List.getLast?_concat]
  · intro e he
    subst he
    rfl
  · intro tags he
    subst he
    rfl

/-- Witness for claim C10 with a raising body. -/
theorem session_lifecycle_witness :
    SessionEv.openS ∉ [SessionEv.act] ∧ SessionEv.closeS ∉ [SessionEv.act] ∧
    ((withBrowserSession [SessionEv.act] (Except.error ("boom"))).1.count
        SessionEv.openS = 1 ∧
     (withBrowserSession [SessionEv.act] (Except.error ("boom"))).1.count
        SessionEv.closeS = 1 ∧
     (withBrowserSession [SessionEv.act] (Except.error ("boom"))).1.head? =
        some SessionEv.openS ∧
     (withBrowserSession [SessionEv.act] (Except.error ("boom"))).1.getLast? =
        some SessionEv.closeS ∧
     (∀ e, (Except.error ("boom") : Except String (List PriceTag)) = Except.error e →
       (withBrowserSession [SessionEv.act] (Except.error ("boom"))).2 = Except.error e) ∧
     (∀ tags, (Except.error ("boom") : Except String (List PriceTag)) = Except.ok tags →
       (withBrowserSession [SessionEv.act] (Except.error ("boom"))).2 =
         Except.ok (run_scraper tags))) :=
  ⟨by decide, by decide,
    session_lifecycle [SessionEv.act] (Except.error ("boom")) (by decide) (by decide)⟩

